import Mathlib

/-!
Verification of the pepper-music-player repository against its specification.

The Python sources are shallowly embedded:
* `pepper_music_player/metadata/tag.py` — the tag model (`TagName`, `Tags`,
  `compose`)
* `pepper_music_player/player/order.py` — the play-order strategy
  (`ErrorPolicy`, `handle_stop_error`, `LinearEntry`)
* `pepper_music_player/ui/screenshot_testlib.py` — the screenshot harness
  (`register_widget`), modelled by its filesystem effect trace.
-/

namespace Pepper

/-! ### Generic association-list helpers

Python `dict`s preserve insertion order; we embed them as association lists
whose key list is duplicate-free.  `alookup` is plain first-match lookup,
`dinsert` is `d[k] = v` (replace in place, else append), and `mcount` counts
occurrences of an element in a list. -/

def alookup {α β : Type} [DecidableEq α] (k : α) : List (α × β) → Option β
  | [] => none
  | (k', v) :: rest => if k' = k then some v else alookup k rest

def dinsert {α β : Type} [DecidableEq α] (k : α) (v : β) :
    List (α × β) → List (α × β)
  | [] => [(k, v)]
  | (k', v') :: rest =>
    if k' = k then (k', v) :: rest else (k', v') :: dinsert k v rest

def mcount {α : Type} [DecidableEq α] (k : α) : List α → Nat
  | [] => 0
  | x :: rest => (if x = k then 1 else 0) + mcount k rest

/-- Keys of an association list are pairwise distinct (always true of an
association list that embeds a Python `dict`). -/
def keysNodup {α β : Type} (c : List (α × β)) : Prop :=
  (c.map Prod.fst).Nodup

instance {α β : Type} [DecidableEq α] (c : List (α × β)) :
    Decidable (keysNodup c) := by
  unfold keysNodup; infer_instance

theorem alookup_eq_none_iff {α β : Type} [DecidableEq α] (k : α)
    (c : List (α × β)) : alookup k c = none ↔ k ∉ c.map Prod.fst := by
  induction c with
  | nil => simp [alookup]
  | cons kv rest ih =>
    obtain ⟨k', v⟩ := kv
    by_cases h : k' = k <;> simp [alookup, h, ih, Ne.symm]

theorem alookup_dinsert {α β : Type} [DecidableEq α] (k k' : α) (v : β)
    (c : List (α × β)) :
    alookup k (dinsert k' v c) =
      if k' = k then some v else alookup k c := by
  induction c with
  | nil => by_cases h : k' = k <;> simp [dinsert, alookup, h]
  | cons kv rest ih =>
    obtain ⟨k₀, v₀⟩ := kv
    by_cases h : k₀ = k'
    · subst h
      by_cases h' : k₀ = k
      · subst h'; simp [dinsert, alookup]
      · simp [dinsert, alookup, h']
    · by_cases h' : k₀ = k
      · subst h'
        have hk : ¬k' = k₀ := fun hh => h hh.symm
        simp [dinsert, alookup, h, hk]
      · simp [dinsert, alookup, h, h', ih]

theorem mcount_append {α : Type} [DecidableEq α] (k : α) (l₁ l₂ : List α) :
    mcount k (l₁ ++ l₂) = mcount k l₁ + mcount k l₂ := by
  induction l₁ with
  | nil => simp [mcount]
  | cons x rest ih => simp [mcount, ih]; omega

theorem mcount_replicate {α : Type} [DecidableEq α] (k x : α) (n : Nat) :
    mcount k (List.replicate n x) = if x = k then n else 0 := by
  induction n with
  | zero => simp [mcount]
  | succ m ih =>
    by_cases h : x = k
    · subst h; simp [List.replicate, mcount, ih]; omega
    · simp [List.replicate, mcount, h, ih]

/-! ### Tag model: `pepper_music_player/metadata/tag.py` -/

/-- `TagName` — name of a known tag (enum in the source). -/
inductive TagName : Type
  | ALBUM
  | ALBUMARTIST
  | MUSICBRAINZ_ALBUMID
  | TRACKNUMBER
deriving DecidableEq

/-- The `.value` string of each `TagName` enum member. -/
def TagName.value : TagName → String
  | .ALBUM => "album"
  | .ALBUMARTIST => "albumartist"
  | .MUSICBRAINZ_ALBUMID => "musicbrainz_albumid"
  | .TRACKNUMBER => "tracknumber"

/-- `ArbitraryTagName = Union[TagName, str]`. -/
abbrev ArbitraryTagName : Type := TagName ⊕ String

/-- `_tag_name_str` — the str form of a tag name. -/
def tag_name_str : ArbitraryTagName → String
  | .inl n => n.value
  | .inr s => s

/-- `Tags` — an immutable mapping from tag name to the tuple of that tag's
values.  Embedded as the insertion-ordered association list underlying the
Python `frozendict`; a `Tags` built by the Python constructor always
satisfies `Tags.WF` (distinct keys). -/
structure Tags : Type where
  entries : List (String × List String)
deriving DecidableEq

/-- The key list of a `Tags` is duplicate-free (true of every value built by
the Python constructor, whose input is a `dict`). -/
def Tags.WF (t : Tags) : Prop :=
  keysNodup t.entries

instance (t : Tags) : Decidable t.WF := by
  unfold Tags.WF; infer_instance

/-- `Tags.__getitem__` — lookup normalized through `_tag_name_str`; `none`
embeds a raised `KeyError`. -/
def Tags.getitem (t : Tags) (key : ArbitraryTagName) : Option (List String) :=
  alookup (tag_name_str key) t.entries

/-- `Tags.__contains__` — containment normalized through `_tag_name_str`. -/
def Tags.contains (t : Tags) (key : ArbitraryTagName) : Bool :=
  (alookup (tag_name_str key) t.entries).isSome

/-- `Mapping.get` as inherited by `Tags`: `self[key]` with the `KeyError`
caught (the caller supplies the fallback at each use site). -/
def Tags.get (t : Tags) (key : ArbitraryTagName) : Option (List String) :=
  t.getitem key

/-- `Tags.one_or_none` — a single value, or `none` if there is not exactly
one value (`self.get(key, ())` then `len(values) == 1`). -/
def Tags.one_or_none (t : Tags) (key : ArbitraryTagName) : Option String :=
  match (t.get key).getD [] with
  | [v] => some v
  | _ => none

/-- `Tags.singular` — `separator.join(self.get(key, (default,)))`.  The
Python argument defaults are `default='[unknown]'` and `separator='; '`;
they are passed explicitly here. -/
def Tags.singular (t : Tags) (key : ArbitraryTagName)
    (default separator : String) : String :=
  String.intercalate separator ((t.get key).getD [default])

/-- `_TRACKNUMBER_REGEX.fullmatch` followed by `.group('tracknumber')`:
the regex is `(?P<tracknumber>\d+)(?:/(?P<totaltracks>\d+))?`, i.e. a
nonempty digit run, optionally followed by a slash and a second nonempty
digit run, and it must consume the whole string.  `\d` is modelled as a
decimal-digit test.  Returns the first digit run on a full match. -/
def TRACKNUMBER_REGEX_fullmatch (s : String) : Option String :=
  let tn := s.data.takeWhile Char.isDigit
  let rest := s.data.dropWhile Char.isDigit
  if tn = [] then none
  else
    match rest with
    | [] => some (String.mk tn)
    | '/' :: total =>
      if total ≠ [] ∧ total.all Char.isDigit then some (String.mk tn)
      else none
    | _ => none

/-- `Tags.tracknumber` — the human-readable track number, if there is one. -/
def Tags.tracknumber (t : Tags) : Option String :=
  match t.one_or_none (Sum.inl TagName.TRACKNUMBER) with
  | none => none
  | some tracknumber =>
    match TRACKNUMBER_REGEX_fullmatch tracknumber with
    | none => some tracknumber
    | some g => some g

/-! ### `compose` — Counter-based multiset intersection

`compose` builds a `collections.Counter` of `(name, value)` pairs per
component, intersects them with `functools.reduce(operator.and_, ...)`, and
regroups `elements()` into a name → values mapping. -/

/-- Adding one element to a `collections.Counter` (in-place increment,
appending a fresh key at the end, as a Python dict does). -/
def cinc {α : Type} [DecidableEq α] (k : α) :
    List (α × Nat) → List (α × Nat)
  | [] => [(k, 1)]
  | (k', n) :: rest =>
    if k' = k then (k', n + 1) :: rest else (k', n) :: cinc k rest

/-- `collections.Counter(l)` — insertion-ordered counts of `l`. -/
def counterOf {α : Type} [DecidableEq α] (l : List α) : List (α × Nat) :=
  l.foldl (fun c k => cinc k c) []

/-- `Counter.__and__` — multiset intersection: iterate over the left
counter's items, keep `min` with the right counter's count when positive. -/
def counterAnd {α : Type} [DecidableEq α] (c₁ c₂ : List (α × Nat)) :
    List (α × Nat) :=
  c₁.filterMap fun kn =>
    let m := min kn.2 ((alookup kn.1 c₂).getD 0)
    if 0 < m then some (kn.1, m) else none

/-- `Counter.elements()` — each key repeated by its count, in key order. -/
def celements {α : Type} (c : List (α × Nat)) : List α :=
  c.flatMap fun kn => List.replicate kn.2 kn.1

/-- The `(name, value)` tag pairs of one component
(`for name, values in component_tags.items(): ... for value in values`). -/
def tagPairs (t : Tags) : List (String × String) :=
  t.entries.flatMap fun nvs => nvs.2.map fun v => (nvs.1, v)

/-- `collections.defaultdict(list)` append: `tags[name].append(value)`. -/
def tappend (n v : String) :
    List (String × List String) → List (String × List String)
  | [] => [(n, [v])]
  | (n', vs) :: rest =>
    if n' = n then (n', vs ++ [v]) :: rest else (n', vs) :: tappend n v rest

/-- Regrouping the common pairs into a name → values mapping. -/
def groupPairs (pairs : List (String × String)) :
    List (String × List String) :=
  pairs.foldl (fun acc p => tappend p.1 p.2 acc) []

/-- `compose` — the tags for an entity composed of tagged sub-entities. -/
def compose (components_tags : List Tags) : Tags :=
  match components_tags with
  | [] => Tags.mk []
  | t :: rest =>
    let c₀ := counterOf (tagPairs t)
    let cs := rest.map fun c => counterOf (tagPairs c)
    Tags.mk (groupPairs (celements (cs.foldl counterAnd c₀)))

/-! ### Counter lemmas -/

theorem alookup_cinc {α : Type} [DecidableEq α] (k k' : α)
    (c : List (α × Nat)) :
    alookup k (cinc k' c) =
      if k' = k then some ((alookup k c).getD 0 + 1) else alookup k c := by
  induction c with
  | nil => by_cases h : k' = k <;> simp [cinc, alookup, h]
  | cons kv rest ih =>
    obtain ⟨k₀, n⟩ := kv
    by_cases h : k₀ = k'
    · subst h
      by_cases h' : k₀ = k
      · subst h'; simp [cinc, alookup]
      · simp [cinc, alookup, h']
    · by_cases h' : k₀ = k
      · subst h'
        have hk : ¬k' = k₀ := fun hh => h hh.symm
        simp [cinc, alookup, h, hk]
      · simp [cinc, alookup, h, h', ih]

theorem alookup_foldl_cinc {α : Type} [DecidableEq α] (k : α) (l : List α)
    (c₀ : List (α × Nat)) :
    (alookup k (l.foldl (fun c x => cinc x c) c₀)).getD 0 =
      (alookup k c₀).getD 0 + mcount k l := by
  induction l generalizing c₀ with
  | nil => simp [mcount]
  | cons x rest ih =>
    simp only [List.foldl_cons, ih, alookup_cinc, mcount]
    by_cases h : x = k
    · subst h; simp; omega
    · simp [h]

theorem alookup_counterOf {α : Type} [DecidableEq α] (k : α) (l : List α) :
    (alookup k (counterOf l)).getD 0 = mcount k l := by
  simpa [counterOf, alookup] using alookup_foldl_cinc k l []

theorem mem_keys_cinc {α : Type} [DecidableEq α] (x k : α)
    (c : List (α × Nat)) (h : x ∈ (cinc k c).map Prod.fst) :
    x ∈ c.map Prod.fst ∨ x = k := by
  induction c with
  | nil => simpa [cinc] using h
  | cons kv rest ih =>
    obtain ⟨k₀, n⟩ := kv
    by_cases hk : k₀ = k
    · left
      simpa [cinc, hk] using h
    · simp only [cinc, if_neg hk, List.map_cons, List.mem_cons] at h
      rcases h with h | h
      · exact Or.inl (by simp [h])
      · rcases ih h with h' | h'
        · exact Or.inl (by simp [h'])
        · exact Or.inr h'

theorem keysNodup_cinc {α : Type} [DecidableEq α] (k : α)
    (c : List (α × Nat)) (h : keysNodup c) : keysNodup (cinc k c) := by
  induction c with
  | nil => simp [cinc, keysNodup]
  | cons kv rest ih =>
    obtain ⟨k₀, n⟩ := kv
    simp only [keysNodup, List.map_cons, List.nodup_cons] at h
    by_cases hk : k₀ = k
    · simpa [keysNodup, cinc, hk, List.nodup_cons] using h
    · simp only [keysNodup, cinc, if_neg hk, List.map_cons, List.nodup_cons]
      refine ⟨fun hmem => ?_, ih h.2⟩
      rcases mem_keys_cinc k₀ k rest hmem with h' | h'
      · exact h.1 h'
      · exact hk h'

theorem keysNodup_foldl_cinc {α : Type} [DecidableEq α] (l : List α)
    (c₀ : List (α × Nat)) (h : keysNodup c₀) :
    keysNodup (l.foldl (fun c x => cinc x c) c₀) := by
  induction l generalizing c₀ with
  | nil => exact h
  | cons x rest ih => exact ih _ (keysNodup_cinc x c₀ h)

theorem keysNodup_counterOf {α : Type} [DecidableEq α] (l : List α) :
    keysNodup (counterOf l) :=
  keysNodup_foldl_cinc l [] (by simp [keysNodup])

theorem counterAnd_cons {α : Type} [DecidableEq α] (k₀ : α) (n : Nat)
    (rest c₂ : List (α × Nat)) :
    counterAnd ((k₀, n) :: rest) c₂ =
      if 0 < min n ((alookup k₀ c₂).getD 0)
      then (k₀, min n ((alookup k₀ c₂).getD 0)) :: counterAnd rest c₂
      else counterAnd rest c₂ := by
  by_cases hm : 0 < min n ((alookup k₀ c₂).getD 0)
  · rw [if_pos hm]
    exact List.filterMap_cons_some (by simp [hm])
  · rw [if_neg hm]
    exact List.filterMap_cons_none (by simp [hm])

theorem mem_keys_counterAnd {α : Type} [DecidableEq α] (x : α)
    (c₁ c₂ : List (α × Nat)) (h : x ∈ (counterAnd c₁ c₂).map Prod.fst) :
    x ∈ c₁.map Prod.fst := by
  induction c₁ with
  | nil => simp [counterAnd] at h
  | cons kv rest ih =>
    obtain ⟨k₀, n⟩ := kv
    rw [counterAnd_cons] at h
    by_cases hm : 0 < min n ((alookup k₀ c₂).getD 0)
    · rw [if_pos hm] at h
      simp only [List.map_cons, List.mem_cons] at h ⊢
      rcases h with h | h
      · exact Or.inl h
      · exact Or.inr (ih h)
    · rw [if_neg hm] at h
      exact List.mem_cons_of_mem _ (ih h)

theorem keysNodup_counterAnd {α : Type} [DecidableEq α]
    (c₁ c₂ : List (α × Nat)) (h : keysNodup c₁) :
    keysNodup (counterAnd c₁ c₂) := by
  induction c₁ with
  | nil => simp [counterAnd, keysNodup]
  | cons kv rest ih =>
    obtain ⟨k₀, n⟩ := kv
    simp only [keysNodup, List.map_cons, List.nodup_cons] at h
    rw [keysNodup, counterAnd_cons]
    by_cases hm : 0 < min n ((alookup k₀ c₂).getD 0)
    · rw [if_pos hm]
      simp only [List.map_cons, List.nodup_cons]
      exact ⟨fun hmem => h.1 (mem_keys_counterAnd k₀ rest c₂ hmem), ih h.2⟩
    · rw [if_neg hm]
      exact ih h.2

theorem alookup_counterAnd {α : Type} [DecidableEq α] (k : α)
    (c₁ c₂ : List (α × Nat)) (h : keysNodup c₁) :
    (alookup k (counterAnd c₁ c₂)).getD 0 =
      min ((alookup k c₁).getD 0) ((alookup k c₂).getD 0) := by
  induction c₁ with
  | nil => simp [counterAnd, alookup]
  | cons kv rest ih =>
    obtain ⟨k₀, n⟩ := kv
    simp only [keysNodup, List.map_cons, List.nodup_cons] at h
    rw [counterAnd_cons]
    by_cases hk : k₀ = k
    · subst hk
      have hnone : alookup k₀ (counterAnd rest c₂) = none := by
        rw [alookup_eq_none_iff]
        exact fun hmem => h.1 (mem_keys_counterAnd k₀ rest c₂ hmem)
      by_cases hm : 0 < min n ((alookup k₀ c₂).getD 0)
      · rw [if_pos hm]
        simp [alookup]
      · rw [if_neg hm, hnone]
        simp [alookup]
        omega
    · by_cases hm : 0 < min n ((alookup k₀ c₂).getD 0)
      · rw [if_pos hm]
        simp [alookup, hk, ih h.2]
      · rw [if_neg hm]
        simp [alookup, hk, ih h.2]

theorem mcount_celements {α : Type} [DecidableEq α] (k : α)
    (c : List (α × Nat)) (h : keysNodup c) :
    mcount k (celements c) = (alookup k c).getD 0 := by
  induction c with
  | nil => simp [celements, mcount, alookup]
  | cons kv rest ih =>
    obtain ⟨k₀, n⟩ := kv
    simp only [keysNodup, List.map_cons, List.nodup_cons] at h
    have hcel : celements ((k₀, n) :: rest) =
        List.replicate n k₀ ++ celements rest := by
      simp [celements]
    rw [hcel, mcount_append, mcount_replicate, ih h.2]
    by_cases hk : k₀ = k
    · subst hk
      rw [(alookup_eq_none_iff k₀ rest).mpr h.1]
      simp [alookup]
    · simp [alookup, hk]

/-! ### Grouping lemmas -/

theorem alookup_tappend (n n' v : String)
    (acc : List (String × List String)) :
    alookup n (tappend n' v acc) =
      if n' = n then some (((alookup n acc).getD []) ++ [v])
      else alookup n acc := by
  induction acc with
  | nil => by_cases h : n' = n <;> simp [tappend, alookup, h]
  | cons kv rest ih =>
    obtain ⟨n₀, vs⟩ := kv
    by_cases h : n₀ = n'
    · subst h
      by_cases h' : n₀ = n
      · subst h'; simp [tappend, alookup]
      · simp [tappend, alookup, h']
    · by_cases h' : n₀ = n
      · subst h'
        have hk : ¬n' = n₀ := fun hh => h hh.symm
        simp [tappend, alookup, h, hk]
      · simp [tappend, alookup, h, h', ih]

theorem mcount_foldl_tappend (n v : String)
    (pairs : List (String × String)) (acc₀ : List (String × List String)) :
    mcount v ((alookup n
        (pairs.foldl (fun acc p => tappend p.1 p.2 acc) acc₀)).getD []) =
      mcount v ((alookup n acc₀).getD []) + mcount (n, v) pairs := by
  induction pairs generalizing acc₀ with
  | nil => simp [mcount]
  | cons p rest ih =>
    obtain ⟨n₁, v₁⟩ := p
    simp only [List.foldl_cons, ih, alookup_tappend, mcount]
    by_cases hn : n₁ = n
    · subst hn
      by_cases hv : v₁ = v
      · subst hv
        simp [mcount_append, mcount]
        omega
      · simp [mcount_append, mcount, hv, Prod.mk.injEq]
    · simp [hn, Prod.mk.injEq]

theorem mcount_groupPairs (n v : String) (pairs : List (String × String)) :
    mcount v ((alookup n (groupPairs pairs)).getD []) = mcount (n, v) pairs := by
  simpa [groupPairs, alookup, mcount] using mcount_foldl_tappend n v pairs []

theorem mcount_tagPairs_entries (n v : String)
    (l : List (String × List String)) (h : keysNodup l) :
    mcount (n, v) (l.flatMap fun nvs => nvs.2.map fun w => (nvs.1, w)) =
      mcount v ((alookup n l).getD []) := by
  induction l with
  | nil => simp [mcount, alookup]
  | cons kv rest ih =>
    obtain ⟨n₁, vs⟩ := kv
    simp only [keysNodup, List.map_cons, List.nodup_cons] at h
    have hmap : mcount (n, v) (vs.map fun w => (n₁, w)) =
        if n₁ = n then mcount v vs else 0 := by
      induction vs with
      | nil => simp [mcount]
      | cons w ws ihw =>
        simp only [List.map_cons, mcount, ihw]
        by_cases hn : n₁ = n
        · subst hn
          by_cases hw : w = v <;> simp [Prod.mk.injEq, hw]
        · simp [Prod.mk.injEq, hn]
    simp only [List.flatMap_cons, mcount_append, hmap]
    by_cases hn : n₁ = n
    · subst hn
      rw [ih h.2, (alookup_eq_none_iff n₁ rest).mpr h.1]
      simp [alookup, mcount]
    · rw [ih h.2]
      simp [alookup, hn]

theorem mcount_tagPairs (n v : String) (t : Tags) (h : t.WF) :
    mcount (n, v) (tagPairs t) = mcount v ((alookup n t.entries).getD []) :=
  mcount_tagPairs_entries n v t.entries h

/-! ### Folding the counter intersection -/

theorem alookup_foldl_counterAnd {α : Type} [DecidableEq α] (k : α)
    (cs : List (List (α × Nat))) (c₀ : List (α × Nat)) (h : keysNodup c₀) :
    (alookup k (cs.foldl counterAnd c₀)).getD 0 =
      cs.foldl (fun a c => min a ((alookup k c).getD 0))
        ((alookup k c₀).getD 0) := by
  induction cs generalizing c₀ with
  | nil => simp
  | cons c rest ih =>
    simp only [List.foldl_cons]
    rw [ih _ (keysNodup_counterAnd c₀ c h), alookup_counterAnd k c₀ c h]

theorem keysNodup_foldl_counterAnd {α : Type} [DecidableEq α]
    (cs : List (List (α × Nat))) (c₀ : List (α × Nat)) (h : keysNodup c₀) :
    keysNodup (cs.foldl counterAnd c₀) := by
  induction cs generalizing c₀ with
  | nil => exact h
  | cons c rest ih => exact ih _ (keysNodup_counterAnd c₀ c h)

/-! ### Specification-side view of `compose` -/

/-- The number of times the pair `(name, value)` occurs in a `Tags`
multiset. -/
def Tags.pairCount (t : Tags) (n v : String) : Nat :=
  mcount v ((alookup n t.entries).getD [])

/-- Minimum of a list of counts; `0` for the empty list (no pair survives
composing an empty collection). -/
def minCount : List Nat → Nat
  | [] => 0
  | n :: ns => ns.foldl min n

theorem foldl_min_congr (l : List Tags) (f g : Tags → Nat) (a : Nat)
    (h : ∀ t ∈ l, f t = g t) :
    l.foldl (fun a t => min a (f t)) a = l.foldl (fun a t => min a (g t)) a := by
  induction l generalizing a with
  | nil => rfl
  | cons t rest ih =>
    simp only [List.foldl_cons]
    rw [h t (List.mem_cons_self t rest)]
    exact ih _ (fun u hu => h u (List.mem_cons_of_mem t hu))

theorem counterOf_tagPairs_pairCount (n v : String) (t : Tags) (h : t.WF) :
    (alookup (n, v) (counterOf (tagPairs t))).getD 0 = t.pairCount n v := by
  rw [alookup_counterOf]
  exact mcount_tagPairs n v t h

/-- C1: for every finite collection of well-formed `Tags`, `compose` returns
the `Tags` whose `(name, value)` pairs form the multiset intersection of the
components' pair multisets — each pair occurs exactly the minimum number of
times it occurs across all components (hence only if it occurs in every
component) — and composing zero components returns empty `Tags`. -/
theorem compose_multiset_intersection (components_tags : List Tags)
    (hwf : ∀ t ∈ components_tags, t.WF) (n v : String) :
    (compose components_tags).pairCount n v =
      minCount (components_tags.map fun t => t.pairCount n v) ∧
    compose [] = Tags.mk [] := by
  refine ⟨?_, rfl⟩
  cases components_tags with
  | nil => simp [compose, Tags.pairCount, alookup, mcount, minCount]
  | cons t rest =>
    have hwt : t.WF := hwf t (List.mem_cons_self t rest)
    have hwr : ∀ u ∈ rest, u.WF := fun u hu =>
      hwf u (List.mem_cons_of_mem t hu)
    have hn0 : keysNodup (counterOf (tagPairs t)) := keysNodup_counterOf _
    have hstep :
        (compose (t :: rest)).pairCount n v =
          mcount (n, v)
            (celements ((rest.map fun c => counterOf (tagPairs c)).foldl
              counterAnd (counterOf (tagPairs t)))) := by
      simp only [compose, Tags.pairCount]
      exact mcount_groupPairs n v _
    rw [hstep,
      mcount_celements _ _ (keysNodup_foldl_counterAnd _ _ hn0),
      alookup_foldl_counterAnd _ _ _ hn0,
      List.foldl_map, counterOf_tagPairs_pairCount n v t hwt]
    have hcong := foldl_min_congr rest
      (fun u => (alookup (n, v) (counterOf (tagPairs u))).getD 0)
      (fun u => u.pairCount n v)
      (t.pairCount n v)
      (fun u hu => counterOf_tagPairs_pairCount n v u (hwr u hu))
    rw [hcong]
    simp [minCount, List.foldl_map]

/-- Witness for C1: composing the tags of the spec's example
(`[{"a": ["x","x"]}, {"a": ["x"]}]`) keeps the pair `("a","x")` with the
minimum multiplicity. -/
theorem compose_multiset_intersection_witness :
    (∀ t ∈ [Tags.mk [("a", ["x", "x"])], Tags.mk [("a", ["x"])]], t.WF) ∧
    ((compose [Tags.mk [("a", ["x", "x"])], Tags.mk [("a", ["x"])]]).pairCount
        "a" "x" =
      minCount ([Tags.mk [("a", ["x", "x"])], Tags.mk [("a", ["x"])]].map
        fun t => t.pairCount "a" "x")) :=
  ⟨by decide,
    (compose_multiset_intersection
      [Tags.mk [("a", ["x", "x"])], Tags.mk [("a", ["x"])]]
      (by decide) "a" "x").1⟩

/-! ### Track-number parsing -/

/-- The spec's wording of the track-number pattern: a nonempty run of
digits, optionally followed by a slash and a second nonempty run of
digits, making up the whole value. -/
def SpecTracknumberShape (s : String) : Prop :=
  ∃ a b, s.data = a ++ b ∧ a ≠ [] ∧ (∀ c ∈ a, c.isDigit = true) ∧
    (b = [] ∨ ∃ ts, b = '/' :: ts ∧ ts ≠ [] ∧ ∀ c ∈ ts, c.isDigit = true)

/-- The spec's "leading run of digits" of a value. -/
def leading_digits (s : String) : String :=
  String.mk (s.data.takeWhile Char.isDigit)

theorem takeWhile_dropWhile_split (p : Char → Bool) (a b : List Char)
    (ha : ∀ c ∈ a, p c = true)
    (hb : b = [] ∨ ∃ x xs, b = x :: xs ∧ p x = false) :
    (a ++ b).takeWhile p = a ∧ (a ++ b).dropWhile p = b := by
  induction a with
  | nil =>
    rcases hb with rfl | ⟨x, xs, rfl, hx⟩
    · simp
    · simp [List.takeWhile_cons, List.dropWhile_cons, hx]
  | cons c a ih =>
    have hc : p c = true := ha c (List.mem_cons_self c a)
    have ih' := ih fun d hd => ha d (List.mem_cons_of_mem c hd)
    simp [List.takeWhile_cons, List.dropWhile_cons, hc, ih'.1, ih'.2]

theorem all_mem_takeWhile (p : Char → Bool) (l : List Char) :
    ∀ c ∈ l.takeWhile p, p c = true := by
  induction l with
  | nil => simp
  | cons x rest ih =>
    intro c hc
    rw [List.takeWhile_cons] at hc
    by_cases hx : p x = true
    · rw [if_pos hx] at hc
      rcases List.mem_cons.mp hc with rfl | hc'
      · exact hx
      · exact ih c hc'
    · rw [if_neg hx] at hc
      simp at hc

theorem dropWhile_head_not (p : Char → Bool) (l : List Char) (x : Char)
    (xs : List Char) (h : l.dropWhile p = x :: xs) : p x = false := by
  induction l with
  | nil => simp [List.dropWhile] at h
  | cons c rest ih =>
    rw [List.dropWhile_cons] at h
    by_cases hc : p c = true
    · rw [if_pos hc] at h
      exact ih h
    · rw [if_neg hc] at h
      injection h with h1 h2
      subst h1
      exact Bool.eq_false_iff.mpr hc

theorem fullmatch_of_shape (s : String) (h : SpecTracknumberShape s) :
    TRACKNUMBER_REGEX_fullmatch s = some (leading_digits s) := by
  obtain ⟨a, b, hs, ha, hd, hb⟩ := h
  have hb' : b = [] ∨ ∃ x xs, b = x :: xs ∧ Char.isDigit x = false := by
    rcases hb with rfl | ⟨ts, rfl, _, _⟩
    · exact Or.inl rfl
    · exact Or.inr ⟨'/', ts, rfl, by decide⟩
  have hsplit := takeWhile_dropWhile_split Char.isDigit a b hd hb'
  have htake : s.data.takeWhile Char.isDigit = a := by rw [hs]; exact hsplit.1
  have hdrop : s.data.dropWhile Char.isDigit = b := by rw [hs]; exact hsplit.2
  have hlead : leading_digits s = String.mk a := by
    rw [leading_digits, htake]
  rw [TRACKNUMBER_REGEX_fullmatch, htake, hdrop, if_neg ha, hlead]
  rcases hb with rfl | ⟨ts, rfl, hts, htsd⟩
  · rfl
  · have : ts ≠ [] ∧ ts.all Char.isDigit := ⟨hts, List.all_eq_true.mpr htsd⟩
    simp [this]

theorem shape_of_fullmatch (s g : String)
    (h : TRACKNUMBER_REGEX_fullmatch s = some g) :
    g = leading_digits s ∧ SpecTracknumberShape s := by
  have hjoin : s.data =
      s.data.takeWhile Char.isDigit ++ s.data.dropWhile Char.isDigit :=
    (List.takeWhile_append_dropWhile Char.isDigit s.data).symm
  have hdig := all_mem_takeWhile Char.isDigit s.data
  rw [TRACKNUMBER_REGEX_fullmatch] at h
  split at h
  · cases h
  · rename_i he
    split at h
    · rename_i heq
      injection h with h'
      subst h'
      refine ⟨rfl, s.data.takeWhile Char.isDigit, [], ?_, he, hdig,
        Or.inl rfl⟩
      rw [heq] at hjoin
      exact hjoin
    · rename_i x b heq
      split at h
      · rename_i hcond
        injection h with h'
        subst h'
        refine ⟨rfl, s.data.takeWhile Char.isDigit, '/' :: b, ?_, he, hdig,
          Or.inr ⟨b, rfl, hcond.1, List.all_eq_true.mp hcond.2⟩⟩
        rw [heq] at hjoin
        exact hjoin
      · cases h
    · cases h

/-! ### Claim theorems about the tag accessors -/

/-- C4: the `tracknumber` accessor returns the leading run of digits when
the single `TRACKNUMBER` value matches `<digits>` optionally followed by
`/<digits>`, returns the value unchanged when it does not match, and
returns absent when the tag is absent. -/
theorem tracknumber_parsing (t : Tags) (v : String) :
    (t.one_or_none (Sum.inl TagName.TRACKNUMBER) = none →
      t.tracknumber = none) ∧
    (t.one_or_none (Sum.inl TagName.TRACKNUMBER) = some v →
      (SpecTracknumberShape v → t.tracknumber = some (leading_digits v)) ∧
      (¬SpecTracknumberShape v → t.tracknumber = some v)) := by
  constructor
  · intro h
    simp [Tags.tracknumber, h]
  · intro h
    constructor
    · intro hs
      simp [Tags.tracknumber, h, fullmatch_of_shape v hs]
    · intro hs
      have hnone : TRACKNUMBER_REGEX_fullmatch v = none := by
        cases hm : TRACKNUMBER_REGEX_fullmatch v with
        | none => rfl
        | some g => exact absurd (shape_of_fullmatch v g hm).2 hs
      simp [Tags.tracknumber, h, hnone]

/-- Witness for C4: `{"tracknumber": ["3/12"]}` parses to `"3"`. -/
theorem tracknumber_parsing_witness :
    (Tags.mk [("tracknumber", ["3/12"])]).tracknumber = some "3" := by
  have h := ((tracknumber_parsing (Tags.mk [("tracknumber", ["3/12"])])
      "3/12").2 (by decide)).1
    ⟨['3'], ['/', '1', '2'], by decide, by decide, by decide,
      Or.inr ⟨['1', '2'], by decide, by decide, by decide⟩⟩
  rw [h]
  decide

/-- C5 counterexample: a name present with an empty value sequence has no
values, yet `singular` returns the empty join rather than the default
`"[unknown]"`. -/
theorem singular_empty_values_counterexample :
    (Tags.mk [("a", [])]).get (Sum.inr "a") = some [] ∧
    (Tags.mk [("a", [])]).singular (Sum.inr "a") "[unknown]" "; " = "" ∧
    (Tags.mk [("a", [])]).singular (Sum.inr "a") "[unknown]" "; " ≠
      "[unknown]" := by
  refine ⟨by decide, by decide, by decide⟩

/-- C5 (amended): `singular` joins the stored values with the separator
whenever the name is present — including the empty join when the name maps
to zero values — and returns the default only when the name is absent. -/
theorem singular_rendering (t : Tags) (key : ArbitraryTagName)
    (default separator : String) :
    (t.get key = none → t.singular key default separator = default) ∧
    (∀ vs, t.get key = some vs →
      t.singular key default separator = String.intercalate separator vs) := by
  constructor
  · intro h
    rw [Tags.singular, h]
    rfl
  · intro vs h
    rw [Tags.singular, h]
    rfl

/-- Witness for C5 (amended): `{"a": ["x","y"]}` renders as `"x; y"` and an
absent name renders as `"[unknown]"`. -/
theorem singular_rendering_witness :
    (Tags.mk [("a", ["x", "y"])]).singular (Sum.inr "a") "[unknown]" "; " =
      "x; y" ∧
    (Tags.mk []).singular (Sum.inl TagName.TRACKNUMBER) "[unknown]" "; " =
      "[unknown]" := by
  constructor
  · have h := (singular_rendering (Tags.mk [("a", ["x", "y"])]) (Sum.inr "a")
      "[unknown]" "; ").2 ["x", "y"] (by decide)
    rw [h]
    decide
  · exact (singular_rendering (Tags.mk []) (Sum.inl TagName.TRACKNUMBER)
      "[unknown]" "; ").1 (by decide)

/-- C6: lookup and containment through the `TagName` enum member and
through its equivalent string name are interchangeable. -/
theorem lookup_name_normalization (t : Tags) (n : TagName) :
    t.getitem (Sum.inl n) = t.getitem (Sum.inr n.value) ∧
    t.contains (Sum.inl n) = t.contains (Sum.inr n.value) :=
  ⟨rfl, rfl⟩

/-- C10: when the `TRACKNUMBER` tag carries two or more values,
`tracknumber` returns absent (it reads the tag through `one_or_none`). -/
theorem tracknumber_multivalue_absent (t : Tags) (vs : List String)
    (h : t.get (Sum.inl TagName.TRACKNUMBER) = some vs)
    (h2 : 2 ≤ vs.length) :
    t.tracknumber = none := by
  have hone : t.one_or_none (Sum.inl TagName.TRACKNUMBER) = none := by
    rw [Tags.one_or_none, h]
    obtain ⟨v₁, vs', rfl⟩ : ∃ v₁ vs', vs = v₁ :: vs' := by
      cases vs with
      | nil => simp at h2
      | cons a l => exact ⟨a, l, rfl⟩
    obtain ⟨v₂, vs'', rfl⟩ : ∃ v₂ vs'', vs' = v₂ :: vs'' := by
      cases vs' with
      | nil => simp at h2
      | cons a l => exact ⟨a, l, rfl⟩
    rfl
  simp [Tags.tracknumber, hone]

/-- Witness for C10: `{"tracknumber": ["1", "2"]}` has no track number. -/
theorem tracknumber_multivalue_absent_witness :
    (Tags.mk [("tracknumber", ["1", "2"])]).tracknumber = none :=
  tracknumber_multivalue_absent (Tags.mk [("tracknumber", ["1", "2"])])
    ["1", "2"] (by decide) (by decide)

/-! ### Play-order model: `pepper_music_player/player/order.py` -/

/-- `Track` — carries only the identity token the ordering logic compares
(`unit.track.token`). -/
structure Track : Type where
  token : Nat
deriving DecidableEq

/-- `PlaylistEntry` — identified by its token. -/
structure PlaylistEntry : Type where
  token : Nat
deriving DecidableEq

/-- `PlayableUnit` — a track paired with the playlist entry it is played
from. -/
structure PlayableUnit : Type where
  track : Track
  playlist_entry : PlaylistEntry
deriving DecidableEq

/-- The playlist as consulted by the order: `playable_units(entry)` returns
the entry's ordered playable units, `none` embedding a raised `KeyError`
(entry not in the playlist). -/
structure Playlist : Type where
  playable_units : PlaylistEntry → Option (List PlayableUnit)

/-- `StopError` — exception to stop playback due to an error. -/
structure StopError : Type where
  message : String
deriving DecidableEq

/-- `ErrorPolicy` — what an `Order` should do when there is an error. -/
inductive ErrorPolicy : Type
  | RETURN_NONE
  | RAISE_STOP_ERROR
deriving DecidableEq

/-- `ErrorPolicy.DEFAULT = RETURN_NONE` (enum alias in the source). -/
def ErrorPolicy.DEFAULT : ErrorPolicy := ErrorPolicy.RETURN_NONE

/-- `handle_stop_error` — decorator applying the caller's `ErrorPolicy`:
it always invokes the wrapped function with `RAISE_STOP_ERROR`; on
`StopError` it re-raises under `RAISE_STOP_ERROR` and otherwise logs and
returns `None`.  A raised `StopError` is the `Except.error` branch. -/
def handle_stop_error
    (function : ErrorPolicy → Except StopError (Option PlayableUnit))
    (error_policy : ErrorPolicy) : Except StopError (Option PlayableUnit) :=
  match function ErrorPolicy.RAISE_STOP_ERROR with
  | Except.ok v => Except.ok v
  | Except.error e =>
    match error_policy with
    | ErrorPolicy.RAISE_STOP_ERROR => Except.error e
    | ErrorPolicy.RETURN_NONE => Except.ok none

/-- The dict comprehension
`{unit.track.token: index for index, unit in enumerate(units)}` —
a Python dict built left to right, later indices overwriting earlier ones
for a repeated token. -/
def tokenIndexDict (units : List PlayableUnit) : List (Nat × Nat) :=
  units.enum.foldl (fun m p => dinsert p.2.track.token p.1 m) []

/-- `LinearEntry._unit_in_same_entry` — another playable unit within the
same entry, or `none`; raises `StopError` when the current entry or track
cannot be resolved. -/
def unit_in_same_entry (playlist : Playlist)
    (current : Option PlayableUnit) (offset : Int) :
    Except StopError (Option PlayableUnit) :=
  match current with
  | none => Except.ok none
  | some cur =>
    match playlist.playable_units cur.playlist_entry with
    | none => Except.error (StopError.mk "Current playlist entry not found.")
    | some units =>
      match alookup cur.track.token (tokenIndexDict units) with
      | none => Except.error (StopError.mk
          "Current track does not exist in current library entity.")
      | some index =>
        if h : 0 ≤ (index : Int) + offset ∧
            (index : Int) + offset < (units.length : Int) then
          Except.ok (some (units.get
            ⟨((index : Int) + offset).toNat, by omega⟩))
        else
          Except.ok none

/-- `LinearEntry.next` implementation body: ignores its `error_policy`
parameter (`del error_policy`) and steps by `offset=1`. -/
def LinearEntry.next_impl (playlist : Playlist)
    (current : Option PlayableUnit) (_error_policy : ErrorPolicy) :
    Except StopError (Option PlayableUnit) :=
  unit_in_same_entry playlist current 1

/-- `LinearEntry.previous` implementation body: ignores its `error_policy`
parameter (`del error_policy`) and steps by `offset=-1`. -/
def LinearEntry.previous_impl (playlist : Playlist)
    (current : Option PlayableUnit) (_error_policy : ErrorPolicy) :
    Except StopError (Option PlayableUnit) :=
  unit_in_same_entry playlist current (-1)

/-- `LinearEntry.next` as seen by callers (wrapped by
`handle_stop_error`). -/
def LinearEntry.next (playlist : Playlist) (current : Option PlayableUnit)
    (error_policy : ErrorPolicy) : Except StopError (Option PlayableUnit) :=
  handle_stop_error (fun p => LinearEntry.next_impl playlist current p)
    error_policy

/-- `LinearEntry.previous` as seen by callers (wrapped by
`handle_stop_error`). -/
def LinearEntry.previous (playlist : Playlist)
    (current : Option PlayableUnit) (error_policy : ErrorPolicy) :
    Except StopError (Option PlayableUnit) :=
  handle_stop_error (fun p => LinearEntry.previous_impl playlist current p)
    error_policy

/-- Specification-side: the index of the last occurrence of a token among
the units' tracks. -/
def lastOcc : List PlayableUnit → Nat → Option Nat
  | [], _ => none
  | u :: us, tok =>
    match lastOcc us tok with
    | some i => some (i + 1)
    | none => if u.track.token = tok then some 0 else none

/-! ### Wrapper and dictionary lemmas for the order model -/

theorem handle_stop_error_of_ok
    (function : ErrorPolicy → Except StopError (Option PlayableUnit))
    (error_policy : ErrorPolicy) (v : Option PlayableUnit)
    (h : function ErrorPolicy.RAISE_STOP_ERROR = Except.ok v) :
    handle_stop_error function error_policy = Except.ok v := by
  rw [handle_stop_error, h]

theorem handle_stop_error_of_error
    (function : ErrorPolicy → Except StopError (Option PlayableUnit))
    (e : StopError)
    (h : function ErrorPolicy.RAISE_STOP_ERROR = Except.error e) :
    handle_stop_error function ErrorPolicy.RAISE_STOP_ERROR =
      Except.error e ∧
    handle_stop_error function ErrorPolicy.RETURN_NONE = Except.ok none := by
  constructor <;> rw [handle_stop_error, h]

theorem handle_stop_error_never_raises_on_return_none
    (function : ErrorPolicy → Except StopError (Option PlayableUnit)) :
    ∃ v, handle_stop_error function ErrorPolicy.RETURN_NONE =
      Except.ok v := by
  rw [handle_stop_error]
  cases function ErrorPolicy.RAISE_STOP_ERROR with
  | ok w => exact ⟨w, rfl⟩
  | error e => exact ⟨none, rfl⟩

theorem handle_stop_error_policy_independent
    (function : ErrorPolicy → Except StopError (Option PlayableUnit))
    (v : Option PlayableUnit)
    (h : handle_stop_error function ErrorPolicy.RAISE_STOP_ERROR =
      Except.ok v) :
    handle_stop_error function ErrorPolicy.RETURN_NONE = Except.ok v := by
  rw [handle_stop_error] at h ⊢
  cases hf : function ErrorPolicy.RAISE_STOP_ERROR with
  | ok w => simp only [hf] at h ⊢; exact h
  | error e =>
    rw [hf] at h
    simp at h

theorem alookup_foldl_dinsert_enumFrom (units : List PlayableUnit) (n : Nat)
    (m₀ : List (Nat × Nat)) (tok : Nat) :
    alookup tok ((units.enumFrom n).foldl
        (fun m p => dinsert p.2.track.token p.1 m) m₀) =
      match lastOcc units tok with
      | some i => some (n + i)
      | none => alookup tok m₀ := by
  induction units generalizing n m₀ with
  | nil => simp [lastOcc]
  | cons u us ih =>
    rw [List.enumFrom_cons, List.foldl_cons, ih]
    cases hl : lastOcc us tok with
    | some i =>
      simp only [lastOcc, hl, Option.some.injEq]
      omega
    | none =>
      simp only [lastOcc, hl, alookup_dinsert]
      by_cases ht : u.track.token = tok
      · simp [ht]
      · simp [ht]

theorem alookup_tokenIndexDict (units : List PlayableUnit) (tok : Nat) :
    alookup tok (tokenIndexDict units) = lastOcc units tok := by
  rw [tokenIndexDict, List.enum_eq_enumFrom,
    alookup_foldl_dinsert_enumFrom units 0 [] tok]
  cases hl : lastOcc units tok with
  | some i => simp
  | none => simp [alookup]

theorem get_cons_zero (u : PlayableUnit) (us : List PlayableUnit)
    (h : 0 < (u :: us).length) : (u :: us).get ⟨0, h⟩ = u := rfl

theorem get_cons_succ (u : PlayableUnit) (us : List PlayableUnit) (j : Nat)
    (h : j + 1 < (u :: us).length) :
    (u :: us).get ⟨j + 1, h⟩ = us.get ⟨j, Nat.lt_of_succ_lt_succ h⟩ := rfl

theorem lastOcc_none_no_occurrence (units : List PlayableUnit) (tok : Nat)
    (h : lastOcc units tok = none) :
    ∀ j, ∀ hj : j < units.length,
      (units.get ⟨j, hj⟩).track.token ≠ tok := by
  induction units with
  | nil =>
    intro j hj
    simp at hj
  | cons u us ih =>
    rw [lastOcc] at h
    cases hl : lastOcc us tok with
    | some k =>
      rw [hl] at h
      cases h
    | none =>
      rw [hl] at h
      by_cases ht : u.track.token = tok
      · rw [if_pos ht] at h
        cases h
      · intro j hj
        cases j with
        | zero =>
          rw [get_cons_zero]
          exact ht
        | succ j' =>
          rw [get_cons_succ]
          exact ih hl j' (Nat.lt_of_succ_lt_succ hj)

theorem lastOcc_is_last (units : List PlayableUnit) (tok i : Nat)
    (h : lastOcc units tok = some i) :
    (∃ hi : i < units.length, (units.get ⟨i, hi⟩).track.token = tok) ∧
    ∀ j, i < j → ∀ hj : j < units.length,
      (units.get ⟨j, hj⟩).track.token ≠ tok := by
  induction units generalizing i with
  | nil => simp [lastOcc] at h
  | cons u us ih =>
    rw [lastOcc] at h
    cases hl : lastOcc us tok with
    | some k =>
      rw [hl] at h
      injection h with h'
      subst h'
      obtain ⟨⟨hk, hget⟩, hafter⟩ := ih k hl
      constructor
      · refine ⟨Nat.succ_lt_succ hk, ?_⟩
        rw [get_cons_succ]
        exact hget
      · intro j hij hj
        cases j with
        | zero => omega
        | succ j' =>
          rw [get_cons_succ]
          exact hafter j' (Nat.lt_of_succ_lt_succ hij)
            (Nat.lt_of_succ_lt_succ hj)
    | none =>
      rw [hl] at h
      by_cases ht : u.track.token = tok
      · rw [if_pos ht] at h
        injection h with h'
        subst h'
        constructor
        · refine ⟨Nat.succ_pos us.length, ?_⟩
          rw [get_cons_zero]
          exact ht
        · intro j hij hj
          cases j with
          | zero => omega
          | succ j' =>
            rw [get_cons_succ]
            exact lastOcc_none_no_occurrence us tok hl j'
              (Nat.lt_of_succ_lt_succ hj)
      · rw [if_neg ht] at h
        cases h

theorem lastOcc_isSome_of_mcount_pos (units : List PlayableUnit) (tok : Nat)
    (h : 0 < mcount tok (units.map fun u => u.track.token)) :
    ∃ i, lastOcc units tok = some i := by
  induction units with
  | nil => simp [mcount] at h
  | cons u us ih =>
    rw [lastOcc]
    cases hl : lastOcc us tok with
    | some k => exact ⟨k + 1, rfl⟩
    | none =>
      by_cases ht : u.track.token = tok
      · exact ⟨0, by simp [ht]⟩
      · rw [List.map_cons, mcount, if_neg ht] at h
        obtain ⟨k, hk⟩ := ih (by omega)
        rw [hk] at hl
        cases hl

/-! ### Evaluation of `unit_in_same_entry` -/

theorem unit_in_same_entry_next_eval (playlist : Playlist)
    (cur : PlayableUnit) (units : List PlayableUnit) (index : Nat)
    (hres : playlist.playable_units cur.playlist_entry = some units)
    (hidx : alookup cur.track.token (tokenIndexDict units) = some index) :
    unit_in_same_entry playlist (some cur) 1 =
      Except.ok units[index + 1]? := by
  simp only [unit_in_same_entry, hres, hidx]
  by_cases hlt : index + 1 < units.length
  · rw [dif_pos (by omega)]
    have ht : ((index : Int) + 1).toNat = index + 1 := by omega
    simp only [ht, List.get_eq_getElem, List.getElem?_eq_getElem hlt]
  · rw [dif_neg (by omega), List.getElem?_eq_none (by omega)]

theorem unit_in_same_entry_previous_eval (playlist : Playlist)
    (cur : PlayableUnit) (units : List PlayableUnit) (index : Nat)
    (hres : playlist.playable_units cur.playlist_entry = some units)
    (hidx : alookup cur.track.token (tokenIndexDict units) = some index) :
    unit_in_same_entry playlist (some cur) (-1) =
      Except.ok (if index = 0 then none else units[index - 1]?) := by
  simp only [unit_in_same_entry, hres, hidx]
  by_cases h0 : index = 0
  · subst h0
    rw [dif_neg (by omega), if_pos rfl]
  · rw [if_neg h0]
    by_cases hlt : index - 1 < units.length
    · rw [dif_pos (by omega)]
      have ht : ((index : Int) + (-1)).toNat = index - 1 := by omega
      simp only [ht, List.get_eq_getElem, List.getElem?_eq_getElem hlt]
    · rw [dif_neg (by omega), List.getElem?_eq_none (by omega)]

theorem LinearEntry_next_eval (playlist : Playlist) (cur : PlayableUnit)
    (units : List PlayableUnit) (index : Nat) (ep : ErrorPolicy)
    (hres : playlist.playable_units cur.playlist_entry = some units)
    (hidx : alookup cur.track.token (tokenIndexDict units) = some index) :
    LinearEntry.next playlist (some cur) ep =
      Except.ok units[index + 1]? := by
  rw [LinearEntry.next]
  exact handle_stop_error_of_ok _ ep _
    (unit_in_same_entry_next_eval playlist cur units index hres hidx)

theorem LinearEntry_previous_eval (playlist : Playlist) (cur : PlayableUnit)
    (units : List PlayableUnit) (index : Nat) (ep : ErrorPolicy)
    (hres : playlist.playable_units cur.playlist_entry = some units)
    (hidx : alookup cur.track.token (tokenIndexDict units) = some index) :
    LinearEntry.previous playlist (some cur) ep =
      Except.ok (if index = 0 then none else units[index - 1]?) := by
  rw [LinearEntry.previous]
  exact handle_stop_error_of_ok _ ep _
    (unit_in_same_entry_previous_eval playlist cur units index hres hidx)

/-! ### Concrete playlists used by the witnesses -/

def sampleUnits : List PlayableUnit :=
  [PlayableUnit.mk (Track.mk 10) (PlaylistEntry.mk 0),
   PlayableUnit.mk (Track.mk 11) (PlaylistEntry.mk 0),
   PlayableUnit.mk (Track.mk 12) (PlaylistEntry.mk 0)]

def samplePlaylist : Playlist :=
  Playlist.mk fun e => if e.token = 0 then some sampleUnits else none

def emptyPlaylist : Playlist :=
  Playlist.mk fun _ => none

def dupUnits : List PlayableUnit :=
  [PlayableUnit.mk (Track.mk 20) (PlaylistEntry.mk 1),
   PlayableUnit.mk (Track.mk 21) (PlaylistEntry.mk 1),
   PlayableUnit.mk (Track.mk 20) (PlaylistEntry.mk 1)]

def dupPlaylist : Playlist :=
  Playlist.mk fun e => if e.token = 1 then some dupUnits else none

def dupCur : PlayableUnit :=
  PlayableUnit.mk (Track.mk 20) (PlaylistEntry.mk 1)

/-! ### Claim theorems about the play order -/

/-- C2: with the current track found at position `index` of its entry's
resolved units, `LinearEntry.next` returns the unit at `index + 1` when in
bounds and absent otherwise, and `LinearEntry.previous` returns the unit at
`index - 1` when `index > 0` and absent at `index = 0` — no wrap-around in
either direction. -/
theorem linear_entry_bounds (playlist : Playlist) (cur : PlayableUnit)
    (units : List PlayableUnit) (index : Nat) (ep : ErrorPolicy)
    (hres : playlist.playable_units cur.playlist_entry = some units)
    (hidx : alookup cur.track.token (tokenIndexDict units) = some index) :
    LinearEntry.next playlist (some cur) ep =
      Except.ok units[index + 1]? ∧
    LinearEntry.previous playlist (some cur) ep =
      Except.ok (if index = 0 then none else units[index - 1]?) ∧
    (index = 0 →
      LinearEntry.previous playlist (some cur) ep = Except.ok none) ∧
    (index + 1 = units.length →
      LinearEntry.next playlist (some cur) ep = Except.ok none) := by
  refine ⟨LinearEntry_next_eval playlist cur units index ep hres hidx,
    LinearEntry_previous_eval playlist cur units index ep hres hidx,
    ?_, ?_⟩
  · intro h0
    rw [LinearEntry_previous_eval playlist cur units index ep hres hidx,
      if_pos h0]
  · intro hlen
    rw [LinearEntry_next_eval playlist cur units index ep hres hidx,
      List.getElem?_eq_none (by omega)]

/-- Witness for C2: in a three-unit entry, `previous` at the first unit and
`next` at the last unit both return absent. -/
theorem linear_entry_bounds_witness :
    LinearEntry.previous samplePlaylist
      (some (PlayableUnit.mk (Track.mk 10) (PlaylistEntry.mk 0)))
      ErrorPolicy.DEFAULT = Except.ok none ∧
    LinearEntry.next samplePlaylist
      (some (PlayableUnit.mk (Track.mk 12) (PlaylistEntry.mk 0)))
      ErrorPolicy.DEFAULT = Except.ok none := by
  constructor
  · exact (linear_entry_bounds samplePlaylist
      (PlayableUnit.mk (Track.mk 10) (PlaylistEntry.mk 0)) sampleUnits 0
      ErrorPolicy.DEFAULT rfl (by decide)).2.2.1 rfl
  · exact (linear_entry_bounds samplePlaylist
      (PlayableUnit.mk (Track.mk 12) (PlaylistEntry.mk 0)) sampleUnits 2
      ErrorPolicy.DEFAULT rfl (by decide)).2.2.2 rfl

/-- C3: when the current unit's playlist entry cannot be resolved,
`next`/`previous` raise `StopError` under `RAISE_STOP_ERROR` and return
absent under `RETURN_NONE`, which is the default policy; under the default
policy the `StopError` is never visible to the caller. -/
theorem linear_entry_error_policy (playlist : Playlist)
    (cur : PlayableUnit)
    (h : playlist.playable_units cur.playlist_entry = none) :
    LinearEntry.next playlist (some cur) ErrorPolicy.RAISE_STOP_ERROR =
      Except.error (StopError.mk "Current playlist entry not found.") ∧
    LinearEntry.next playlist (some cur) ErrorPolicy.RETURN_NONE =
      Except.ok none ∧
    LinearEntry.previous playlist (some cur) ErrorPolicy.RAISE_STOP_ERROR =
      Except.error (StopError.mk "Current playlist entry not found.") ∧
    LinearEntry.previous playlist (some cur) ErrorPolicy.RETURN_NONE =
      Except.ok none ∧
    ErrorPolicy.DEFAULT = ErrorPolicy.RETURN_NONE ∧
    (∀ (pl : Playlist) (c : Option PlayableUnit), ∃ v,
      LinearEntry.next pl c ErrorPolicy.DEFAULT = Except.ok v) ∧
    (∀ (pl : Playlist) (c : Option PlayableUnit), ∃ v,
      LinearEntry.previous pl c ErrorPolicy.DEFAULT = Except.ok v) := by
  have himplN : LinearEntry.next_impl playlist (some cur)
      ErrorPolicy.RAISE_STOP_ERROR =
      Except.error (StopError.mk "Current playlist entry not found.") := by
    simp only [LinearEntry.next_impl, unit_in_same_entry, h]
  have himplP : LinearEntry.previous_impl playlist (some cur)
      ErrorPolicy.RAISE_STOP_ERROR =
      Except.error (StopError.mk "Current playlist entry not found.") := by
    simp only [LinearEntry.previous_impl, unit_in_same_entry, h]
  have hN := handle_stop_error_of_error _ _ himplN
  have hP := handle_stop_error_of_error _ _ himplP
  refine ⟨hN.1, hN.2, hP.1, hP.2, rfl, ?_, ?_⟩
  · intro pl c
    exact handle_stop_error_never_raises_on_return_none _
  · intro pl c
    exact handle_stop_error_never_raises_on_return_none _

/-- Witness for C3: a playlist that resolves nothing. -/
theorem linear_entry_error_policy_witness :
    LinearEntry.next emptyPlaylist
      (some (PlayableUnit.mk (Track.mk 10) (PlaylistEntry.mk 0)))
      ErrorPolicy.RAISE_STOP_ERROR =
      Except.error (StopError.mk "Current playlist entry not found.") ∧
    LinearEntry.next emptyPlaylist
      (some (PlayableUnit.mk (Track.mk 10) (PlaylistEntry.mk 0)))
      ErrorPolicy.RETURN_NONE = Except.ok none := by
  have h := linear_entry_error_policy emptyPlaylist
    (PlayableUnit.mk (Track.mk 10) (PlaylistEntry.mk 0)) rfl
  exact ⟨h.1, h.2.1⟩

/-- C8: whenever a call with `RAISE_STOP_ERROR` returns a value rather than
raising, the call with `RETURN_NONE` on the same inputs returns the same
value — the wrapper always invokes the implementation with
`RAISE_STOP_ERROR` and the implementation ignores its own policy
argument. -/
theorem linear_entry_policy_independence (playlist : Playlist)
    (current : Option PlayableUnit) (v : Option PlayableUnit) :
    (LinearEntry.next playlist current ErrorPolicy.RAISE_STOP_ERROR =
        Except.ok v →
      LinearEntry.next playlist current ErrorPolicy.RETURN_NONE =
        Except.ok v) ∧
    (LinearEntry.previous playlist current ErrorPolicy.RAISE_STOP_ERROR =
        Except.ok v →
      LinearEntry.previous playlist current ErrorPolicy.RETURN_NONE =
        Except.ok v) := by
  constructor
  · intro h
    rw [LinearEntry.next] at h ⊢
    exact handle_stop_error_policy_independent _ v h
  · intro h
    rw [LinearEntry.previous] at h ⊢
    exact handle_stop_error_policy_independent _ v h

/-- Witness for C8: a successful step returns the same unit under both
policies. -/
theorem linear_entry_policy_independence_witness :
    LinearEntry.next samplePlaylist
      (some (PlayableUnit.mk (Track.mk 10) (PlaylistEntry.mk 0)))
      ErrorPolicy.RETURN_NONE =
      Except.ok (some (PlayableUnit.mk (Track.mk 11) (PlaylistEntry.mk 0))) :=
  (linear_entry_policy_independence samplePlaylist
    (some (PlayableUnit.mk (Track.mk 10) (PlaylistEntry.mk 0)))
    (some (PlayableUnit.mk (Track.mk 11) (PlaylistEntry.mk 0)))).1 rfl

/-- C9: when the current track's token occurs at more than one position of
the resolved units, the step is computed from the position of the last
occurrence (the dict comprehension keeps the highest index), not the
first. -/
theorem step_from_last_occurrence (playlist : Playlist)
    (cur : PlayableUnit) (units : List PlayableUnit) (ep : ErrorPolicy)
    (hres : playlist.playable_units cur.playlist_entry = some units)
    (hmulti : 2 ≤ mcount cur.track.token
      (units.map fun u => u.track.token)) :
    ∃ last,
      alookup cur.track.token (tokenIndexDict units) = some last ∧
      (∃ hl : last < units.length,
        (units.get ⟨last, hl⟩).track.token = cur.track.token) ∧
      (∀ j, last < j → ∀ hj : j < units.length,
        (units.get ⟨j, hj⟩).track.token ≠ cur.track.token) ∧
      LinearEntry.next playlist (some cur) ep =
        Except.ok units[last + 1]? ∧
      LinearEntry.previous playlist (some cur) ep =
        Except.ok (if last = 0 then none else units[last - 1]?) := by
  obtain ⟨last, hlast⟩ := lastOcc_isSome_of_mcount_pos units cur.track.token
    (by omega)
  have hdict : alookup cur.track.token (tokenIndexDict units) = some last := by
    rw [alookup_tokenIndexDict, hlast]
  obtain ⟨⟨hl, hget⟩, hafter⟩ :=
    lastOcc_is_last units cur.track.token last hlast
  exact ⟨last, hdict, ⟨hl, hget⟩, hafter,
    LinearEntry_next_eval playlist cur units last ep hres hdict,
    LinearEntry_previous_eval playlist cur units last ep hres hdict⟩

/-- Witness for C9: with token 20 at positions 0 and 2 of a three-unit
entry, `next` steps from position 2 (and thus returns absent), not from
position 0. -/
theorem step_from_last_occurrence_witness :
    LinearEntry.next dupPlaylist (some dupCur) ErrorPolicy.DEFAULT =
      Except.ok none := by
  obtain ⟨last, hdict, _, _, hnext, _⟩ :=
    step_from_last_occurrence dupPlaylist dupCur dupUnits
      ErrorPolicy.DEFAULT rfl (by decide)
  have h2 : alookup dupCur.track.token (tokenIndexDict dupUnits) =
      some 2 := by decide
  rw [hdict] at h2
  injection h2 with h2'
  subst h2'
  rw [hnext]
  rfl

/-! ### Screenshot harness: `pepper_music_player/ui/screenshot_testlib.py`

`register_widget` renders the widget in an off-screen window (a GTK effect
with no filesystem footprint) and then, only when `TEST_ARTIFACT_DIR` is
set, creates the `screenshots` subdirectory (`mkdir(exist_ok=True)`) and
writes the PNG.  The function is embedded by its filesystem effect trace;
`pathlib.Path.joinpath` is modelled as joining with a slash. -/

/-- A filesystem operation performed by the harness. -/
inductive FsOp : Type
  | mkdir_exist_ok (path : String)
  | write_png (path : String)
deriving DecidableEq

/-- `register_widget` — the filesystem effect trace of a call, as a
function of the `TEST_ARTIFACT_DIR` environment variable
(`none` = unset). -/
def register_widget (test_artifact_dir : Option String)
    (module_name screenshot_name : String) : List FsOp :=
  match test_artifact_dir with
  | none => []
  | some artifact_dir =>
    let screenshot_dir := artifact_dir ++ "/screenshots"
    [FsOp.mkdir_exist_ok screenshot_dir,
     FsOp.write_png
       (screenshot_dir ++ "/" ++ module_name ++ "." ++ screenshot_name ++
         ".png")]

/-- C7: with `TEST_ARTIFACT_DIR` unset, `register_widget` writes no file
(and completes); with it set, it creates `<dir>/screenshots` if absent and
writes exactly one PNG at
`<dir>/screenshots/<module_name>.<screenshot_name>.png`. -/
theorem register_widget_artifacts (module_name screenshot_name : String) :
    register_widget none module_name screenshot_name = [] ∧
    ∀ artifact_dir,
      register_widget (some artifact_dir) module_name screenshot_name =
        [FsOp.mkdir_exist_ok (artifact_dir ++ "/screenshots"),
         FsOp.write_png ((artifact_dir ++ "/screenshots") ++ "/" ++
           module_name ++ "." ++ screenshot_name ++ ".png")] :=
  ⟨rfl, fun _ => rfl⟩

end Pepper
